import Mathlib

/-!
A verification development for the RPKI-Tree repository (src/PKITree.py and
src/imports.py).  The Python code is shallowly embedded into Lean:

* Python dicts (ordered, insertion at the end) are modelled as association
  lists of key/value pairs, looked up at the first matching key;
* `defaultdict` reads that materialize a default entry are modelled
  explicitly at their use sites;
* fallible Python code is modelled with an explicit error type (`PyErr`),
  and the potentially diverging loops (`get_path`, `get_resource_list`)
  are modelled with an explicit fuel argument: `none` means the loop has
  not finished within the given fuel.
-/

/-- Python-level exceptions that the embedded fragments can raise. -/
inductive PyErr where
  | typeError
  | attributeError
  | nameError
deriving DecidableEq, Repr

/-- First-match lookup in an association list (Python `dict.get(k, None)`). -/
def alookup {α : Type} : List (String × α) → String → Option α
  | [], _ => none
  | (k2, v) :: rest, k => if k2 = k then some v else alookup rest k

/-- Assignment `d[k] = v` on a Python dict: replace the value in place if the
key is present, otherwise append the new binding at the end. -/
def aset {α : Type} : List (String × α) → String → α → List (String × α)
  | [], k, v => [(k, v)]
  | (k2, v2) :: rest, k, v =>
    if k2 = k then (k2, v) :: rest else (k2, v2) :: aset rest k v

/-- A resource descriptor appearing in a record's `subordinate_resources`
list; each JSON descriptor dict carries a single tag key (`ip_prefix`,
`ip_range`, `asid`, `asrange`, `asid_inherit` or `ip_inherit`; names with
the trailing word spelled out are not legal Lean identifiers here, so the
tags are abbreviated).  `other` stands for a descriptor with an
unrecognized key. -/
inductive Resource where
  | ipPfx (v : String)
  | ipRange (mn mx : String)
  | asid (n : Nat)
  | asrange (mn mx : Nat)
  | asidInherit (b : Bool)
  | ipInherit (b : Bool)
  | other (k : String)
deriving DecidableEq, Repr

/-- A validated ROA payload entry of a `vrps` list: the JSON fields
`prefix` and `asid`. -/
structure VRP where
  pfx : String
  asid : Nat
deriving DecidableEq, Repr

/-- The per-node record stored in `node_data`.  Optional JSON keys (`tal`,
`carepository`) are `Option`; `subordinate_resources` and `vrps` are present
with their respective record kinds and modelled as plain lists. -/
structure NodeData where
  type : String
  tal : Option String
  file : String
  carepository : Option String
  subordinate_resources : List Resource
  vrps : List VRP
deriving DecidableEq, Repr

/-- The `PKITree` state: the three maps built by `insert_node`
(`parent_to_child` is a `defaultdict(list)`, `child_to_parent` a
`defaultdict(str)`, `node_data` a plain dict). -/
structure PKITree where
  parent_to_child : List (String × List String)
  child_to_parent : List (String × String)
  node_data : List (String × NodeData)
deriving DecidableEq, Repr

/-- The state produced by `PKITree.__init__`. -/
def emptyTree : PKITree :=
  { parent_to_child := [], child_to_parent := [], node_data := [] }

/-- `MAX_ASN_NUM` from PKITree.py. -/
def MAX_ASN_NUM : Nat := 4294967295

/-- `PKITree.insert_node(ski, aki, data)`.  Mirrors the Python control flow:
duplicate-SKI early return; `parent_to_child[aki].append(ski)` when
`ski != aki` (a `defaultdict` access that creates `aki`'s entry);
the `defaultdict` read of `child_to_parent[ski]` in the guard (which
materializes an empty-string entry for `ski`); the early return when that
entry is non-empty; the self-parent reclassification `aki = ""`; the final
`child_to_parent[ski] = aki` assignment and the pre-seeding of `aki`'s own
parent entry. -/
def insert_node (t : PKITree) (ski aki : String) (data : NodeData) : PKITree :=
  if (alookup t.node_data ski).isSome then t
  else
    let nd := aset t.node_data ski data
    let p2c :=
      if ski ≠ aki then
        aset t.parent_to_child aki ((alookup t.parent_to_child aki).getD [] ++ [ski])
      else t.parent_to_child
    let cp0 :=
      if (alookup t.child_to_parent ski).isSome then t.child_to_parent
      else t.child_to_parent ++ [(ski, "")]
    if ((alookup t.child_to_parent ski).getD "").length > 0 then
      { parent_to_child := p2c, child_to_parent := cp0, node_data := nd }
    else
      let aki2 := if ski = aki then "" else aki
      let cp1 := aset cp0 ski aki2
      let cp2 :=
        if (alookup cp1 aki2).isSome then cp1 else cp1 ++ [(aki2, "")]
      { parent_to_child := p2c, child_to_parent := cp2, node_data := nd }

/-- `PKITree.get_parent(ski)`: `child_to_parent.get(ski, None)` (a plain
`.get`, which does not materialize a default entry). -/
def get_parent (t : PKITree) (ski : String) : Option String :=
  alookup t.child_to_parent ski

/-- `PKITree.get_children(ski)`: `parent_to_child.get(ski, None)`. -/
def get_children (t : PKITree) (ski : String) : Option (List String) :=
  alookup t.parent_to_child ski

/-- `PKITree.get_data(ski)`: `node_data.get(ski, None)`. -/
def get_data (t : PKITree) (ski : String) : Option NodeData :=
  alookup t.node_data ski

/-- `PKITree.get_url(ski)`: returns `None` when the node data is missing,
otherwise the console URL derived from the `file` field. -/
def get_url (t : PKITree) (ski : String) : Option String :=
  (get_data t ski).map
    (fun d => "https://console.rpki-client.org/" ++ d.file ++ ".html")

/-- `PKITree.get_ca_domain(ski)`.  When the node data is missing the Python
code evaluates `"carepository" in None`, which raises `TypeError`; otherwise
it strips the transport scheme and returns the host segment. -/
def get_ca_domain (t : PKITree) (ski : String) : Except PyErr String :=
  match get_data t ski with
  | none => .error .typeError
  | some d =>
    let url := match d.carepository with
      | some u => u
      | none => d.file
    let url := url.replace "rsync://" ""
    .ok ((url.splitOn "/").headD "")

/-- The loop of `PKITree.get_path(ski)` with explicit fuel.  The current
`ski` is an `Option String` because Python rebinds it to the result of
`get_parent`, which can be `None`; evaluating `len(None)` in the loop
condition then raises `TypeError`.  `none` as a result means the fuel ran
out before the loop finished (the loop has no other exit on a cyclic
parent chain). -/
def getPathFuel (t : PKITree) : Option String → List String → Nat →
    Option (Except PyErr (List String))
  | _, _, 0 => none
  | none, _, _ + 1 => some (.error .typeError)
  | some ski, acc, fuel + 1 =>
    if ski.length = 0 then some (.ok acc)
    else
      let acc2 := acc ++ [ski]
      let parent := get_parent t ski
      if parent = some ski then some (.ok acc2)
      else getPathFuel t parent acc2 fuel

/-- `PKITree.get_path(ski)` terminates (with a value or an exception). -/
def getPathTerminates (t : PKITree) (ski : String) : Prop :=
  ∃ n, (getPathFuel t (some ski) [] n).isSome

/-- `PKITree.is_roa(ski)`: `None` when the node data is missing. -/
def is_roa (t : PKITree) (ski : String) : Option Bool :=
  match get_data t ski with
  | none => none
  | some d => some (d.type = "roa")

/-- The literal `hit_list` of `PKITree.is_rir_owned_rc` (including its
duplicated last entry). -/
def hitList : List Resource :=
  [Resource.asrange 0 4294967295,
   Resource.asrange 1 4294967295,
   Resource.ipPfx "0.0.0.0/0",
   Resource.ipPfx "::/0",
   Resource.asidInherit true,
   Resource.ipInherit true,
   Resource.ipInherit true]

/-- `PKITree.is_rir_owned_rc(ski)`: `None` when the node data is missing;
`True` when the node carries `tal`; `False` for a ROA; otherwise `True`
iff one of the `hit_list` markers occurs among the node's
`subordinate_resources`. -/
def is_rir_owned_rc (t : PKITree) (ski : String) : Option Bool :=
  match get_data t ski with
  | none => none
  | some d =>
    if d.tal.isSome then some true
    else if d.type = "roa" then some false
    else some (hitList.any (fun h => decide (h ∈ d.subordinate_resources)))

/-- Python truthiness of an `Option Bool` (`None` is falsy). -/
def pyTruthy (o : Option Bool) : Bool :=
  o.getD false

/-- The child-scanning loop of `PKITree.has_issued_roas`: dereferencing a
child whose data is missing (`child_data["type"]` on `None`) raises
`TypeError`. -/
def childListHasRoa (t : PKITree) : List String → Except PyErr Bool
  | [] => .ok false
  | c :: rest =>
    match get_data t c with
    | none => .error .typeError
    | some cd => if cd.type = "roa" then .ok true else childListHasRoa t rest

/-- `PKITree.has_issued_roas(ski)`: `None` when the node data is missing,
`False` for a non-`ca_cert` node or an RIR-owned resource certificate
(Python truthiness of `is_rir_owned_rc`); `True` when `get_children`
returns `None`; otherwise `True` iff some direct child is a ROA. -/
def has_issued_roas (t : PKITree) (ski : String) : Except PyErr (Option Bool) :=
  match get_data t ski with
  | none => .ok none
  | some d =>
    if d.type ≠ "ca_cert" then .ok (some false)
    else if pyTruthy (is_rir_owned_rc t ski) then .ok (some false)
    else
      match get_children t ski with
      | none => .ok (some true)
      | some cl => (childListHasRoa t cl).map some

/-! ### The CIDR range normalizer (`get_cidr` in imports.py)

`get_cidr` parses its two dotted-quad arguments with `ipaddress.ip_address`
and hands them to `ipaddress.summarize_address_range`, which emits the
greedy power-of-two-aligned decomposition of the inclusive range: each step
takes the largest aligned block starting at `first` that fits in the
remainder.  The block-size exponent is
`min(count_righthand_zero_bits(first, 32), (last - first + 1).bit_length() - 1)`.
-/

/-- Trailing zero bits of `n`, capped at `bits` (for `n = 0` the cap is
returned by the caller `countRh` directly). -/
def tzCap : Nat → Nat → Nat
  | _, 0 => 0
  | n, b + 1 => if n % 2 = 1 then 0 else tzCap (n / 2) b + 1

/-- `ipaddress._count_righthand_zero_bits(number, bits)`: the number of
trailing zero bits of `number`, capped at `bits` (`bits` itself for 0). -/
def countRh (n bits : Nat) : Nat :=
  if n = 0 then bits else tzCap n bits

/-- The block-size exponent chosen by one step of
`ipaddress.summarize_address_range`:
`min(_count_righthand_zero_bits(first, 32), (last - first + 1).bit_length() - 1)`
(for `n ≥ 1`, `n.bit_length() - 1` is `Nat.log2 n`). -/
def nbitsOf (first last : Nat) : Nat :=
  min (countRh first 32) (Nat.log2 (last - first + 1))

/-- One greedy pass of `ipaddress.summarize_address_range` over the numeric
range `[first, last]`, emitting `(base, sizeExponent)` pairs: the block
`(b, k)` stands for the CIDR block of the `2 ^ k` addresses starting at
`b` (printed with prefix length `32 - k`). -/
def summarize (first last : Nat) : List (Nat × Nat) :=
  if h : first ≤ last then
    (first, nbitsOf first last) :: summarize (first + 2 ^ nbitsOf first last) last
  else []
termination_by last + 1 - first
decreasing_by
  have h1 : 0 < 2 ^ nbitsOf first last := Nat.pos_pow_of_pos _ (by norm_num)
  omega

/-- Split a character list at every occurrence of `sep`. -/
def splitOnChar (sep : Char) : List Char → List (List Char)
  | [] => [[]]
  | c :: rest =>
    match splitOnChar sep rest with
    | [] => [[]]
    | g :: gs => if c = sep then [] :: g :: gs else (c :: g) :: gs

/-- Read a non-empty list of decimal digits. -/
def digitsToNat : List Char → Nat → Option Nat
  | [], acc => some acc
  | c :: rest, acc =>
    if c.isDigit then digitsToNat rest (acc * 10 + (c.toNat - 48)) else none

/-- Dotted-quad IPv4 parsing (`ipaddress.ip_address` on a v4 literal). -/
def parseIPv4 (s : String) : Option Nat :=
  match (splitOnChar '.' s.data).map (fun g => digitsToNat g 0) with
  | [some a, some b, some c, some d] =>
    if a < 256 ∧ b < 256 ∧ c < 256 ∧ d < 256 then
      some (a * 16777216 + b * 65536 + c * 256 + d)
    else none
  | _ => none

/-- Decimal digits of a number (little fuel recursion on the number). -/
def natDigits : Nat → Nat → List Char
  | _, 0 => []
  | n, f + 1 =>
    if n < 10 then [Char.ofNat (48 + n)]
    else natDigits (n / 10) f ++ [Char.ofNat (48 + n % 10)]

/-- Decimal rendering of a byte-sized number. -/
def natToString (n : Nat) : String :=
  String.mk (natDigits n 10)

/-- Dotted-quad rendering of a 32-bit address. -/
def ipv4ToString (n : Nat) : String :=
  natToString (n / 16777216 % 256) ++ "." ++ natToString (n / 65536 % 256) ++ "." ++
    natToString (n / 256 % 256) ++ "." ++ natToString (n % 256)

/-- `get_cidr(start_ip, end_ip)` from imports.py for IPv4 inputs: parse the
endpoints, summarize, and print each block as `base/maskLen`.  (On inputs
that do not parse the Python code raises `ValueError`; that path, never
exercised by the claims, is modelled as the empty list.) -/
def get_cidr (startIp endIp : String) : List String :=
  match parseIPv4 startIp, parseIPv4 endIp with
  | some a, some b =>
    (summarize a b).map (fun p => ipv4ToString p.1 ++ "/" ++ natToString (32 - p.2))
  | _, _ => []

/-! ### The resource collector (`get_resource_list` and its helpers) -/

/-- The loop body of the inner helper `extract_resources(resource_list)` of
`get_resource_list`, with the two accumulators (`prefix_list`, its local
`asn_list`) passed explicitly.  `asid_inherit`/`ip_inherit` are skipped; an
`asrange` whose `max` equals `MAX_ASN_NUM` only logs a warning; any other
`asrange` is expanded to the explicit list `range(min, max + 1)`; an
unrecognized key is printed and contributes nothing. -/
def extractResourcesAux : List Resource → List String → List Nat →
    List String × List Nat
  | [], ps, asns => (ps, asns)
  | r :: rest, ps, asns =>
    match r with
    | .ipPfx v => extractResourcesAux rest (ps ++ [v]) asns
    | .ipRange mn mx => extractResourcesAux rest (ps ++ get_cidr mn mx) asns
    | .asid n => extractResourcesAux rest ps (asns ++ [n])
    | .asrange mn mx =>
      if mx = MAX_ASN_NUM then extractResourcesAux rest ps asns
      else extractResourcesAux rest ps (asns ++ List.range' mn (mx + 1 - mn))
    | .asidInherit _ => extractResourcesAux rest ps asns
    | .ipInherit _ => extractResourcesAux rest ps asns
    | .other _ => extractResourcesAux rest ps asns

/-- `extract_resources(resource_list)`: returns `(prefix_list, asn_list)`. -/
def extract_resources (rs : List Resource) : List String × List Nat :=
  extractResourcesAux rs [] []

/-- The inner helper `extract_vrps(vrps)` of `get_resource_list`.  Its local
variables are `prefix_list` and `origin_asn_list`, but the loop body appends
each VRP's `asid` to the *enclosing function's* `asn_list` (a closure
capture: `asn_list` is never assigned inside `extract_vrps`, so Python
resolves it to the outer variable), while `origin_asn_list` — the second
component of the returned pair — is never appended to.  The outer list is
threaded through explicitly here; the returned triple is
`(prefix_list, origin_asn_list, outer asn_list after the calls)`. -/
def extractVrpsAux : List VRP → List String → List Nat → List Nat →
    List String × List Nat × List Nat
  | [], ps, origin, outer => (ps, origin, outer)
  | v :: rest, ps, origin, outer =>
    extractVrpsAux rest (ps ++ [v.pfx]) origin (outer ++ [v.asid])

/-- `extract_vrps(vrps)` together with its effect on the enclosing
`asn_list`. -/
def extract_vrps (vrps : List VRP) (outer : List Nat) :
    List String × List Nat × List Nat :=
  extractVrpsAux vrps [] [] outer

/-- The per-node prefix insertion loop of `get_resource_list`: default
routes are skipped, a prefix containing a colon goes into the v6 trie,
anything else into the v4 trie; `pyt[pfx] = child` is a keyed overwrite
(the PyTricia tries are modelled by their key/value bindings). -/
def insertPfxs (child : String) : List String → List (String × String) →
    List (String × String) → List (String × String) × List (String × String)
  | [], p4, p6 => (p4, p6)
  | p :: rest, p4, p6 =>
    if p = "0.0.0.0/0" ∨ p = "::/0" then insertPfxs child rest p4 p6
    else if p.data.contains ':' then insertPfxs child rest p4 (aset p6 p child)
    else insertPfxs child rest (aset p4 p child) p6

/-- The `while queue` loop of `PKITree.get_resource_list`, with explicit
fuel (the loop can revisit nodes and, on a cyclic child relation, run
forever; `none` means the fuel ran out).  State per iteration:

* `queue`, the v4/v6 binding lists (`pyt4`/`pyt6`) and the shared `asn_list`;
* `prevAsn` models the Python local `curr_asn_list`, which is only assigned
  in the `roa`/`ca_cert` branches: on a node of any other type the loop
  falls through to `asn_list.extend(curr_asn_list)` with the *stale* value
  from an earlier iteration, raising `NameError` if no iteration has
  assigned it yet.

Per popped `child`: `self.get_data(child).copy()` dereferences the data
before the `if data is None` guard, so a missing node raises
`AttributeError` (the guard is dead code and has no branch here).  A `roa`
node is skipped when `resource_type == "ca_cert"`, otherwise handled by
`extract_vrps` (whose loop appends the VRP asids to the shared `asn_list`);
a `ca_cert` node is skipped when `resource_type == "roa"`, otherwise
handled by `extract_resources`.  The `continue` of a skipped node also
skips the enqueueing of its children.  After the prefix insertions and the
`asn_list.extend`, when `recursive` is set the node's children (if any)
are appended to the queue. -/
inductive GrlStep where
  | err (e : PyErr)
  | next (queue2 : List String) (p4 p6 : List (String × String))
      (asns : List Nat) (prevAsn : Option (List Nat))
deriving DecidableEq, Repr

/-- One iteration of the loop on the popped `child`, producing either an
exception or the next loop state. -/
def grlStep (t : PKITree) (resource_type : String) (recursive : Bool)
    (child : String) (queue : List String) (p4 p6 : List (String × String))
    (asns : List Nat) (prevAsn : Option (List Nat)) : GrlStep :=
  match alookup t.node_data child with
  | none => .err .attributeError
  | some data =>
    if data.type = "roa" then
      if resource_type = "ca_cert" then .next queue p4 p6 asns prevAsn
      else
        let res := extract_vrps data.vrps asns
        let pq := insertPfxs child res.1 p4 p6
        let asns2 := res.2.2 ++ res.2.1
        let queue2 :=
          if recursive then queue ++ (alookup t.parent_to_child child).getD []
          else queue
        .next queue2 pq.1 pq.2 asns2 (some res.2.1)
    else if data.type = "ca_cert" then
      if resource_type = "roa" then .next queue p4 p6 asns prevAsn
      else
        let res := extract_resources data.subordinate_resources
        let pq := insertPfxs child res.1 p4 p6
        let asns2 := asns ++ res.2
        let queue2 :=
          if recursive then queue ++ (alookup t.parent_to_child child).getD []
          else queue
        .next queue2 pq.1 pq.2 asns2 (some res.2)
    else
      match prevAsn with
      | none => .err .nameError
      | some stale =>
        let queue2 :=
          if recursive then queue ++ (alookup t.parent_to_child child).getD []
          else queue
        .next queue2 p4 p6 (asns ++ stale) prevAsn

def grlLoop (t : PKITree) (resource_type : String) (recursive : Bool) :
    List String → List (String × String) → List (String × String) →
    List Nat → Option (List Nat) → Nat →
    Option (Except PyErr (List (String × String) × List (String × String) × List Nat))
  | [], p4, p6, asns, _, _ => some (.ok (p4, p6, asns))
  | _ :: _, _, _, _, _, 0 => none
  | child :: queue, p4, p6, asns, prevAsn, fuel + 1 =>
    match grlStep t resource_type recursive child queue p4 p6 asns prevAsn with
    | .err e => some (.error e)
    | .next queue2 p42 p62 asns2 prevAsn2 =>
      grlLoop t resource_type recursive queue2 p42 p62 asns2 prevAsn2 fuel

/-- `PKITree.get_resource_list(root, resource_type, recursive)` with fuel.
The initial queue holds `root` followed — when `recursive` is set — by a
copy of `root`'s current children (which the loop will enqueue a second
time when it pops `root`).  The Python function finally returns
`(pyt4, pyt6, set(asn_list))`; the ASN component is kept as the underlying
list here, the claims about it are membership statements. -/
def getResourceList (t : PKITree) (root : String) (resource_type : String)
    (recursive : Bool) (fuel : Nat) :
    Option (Except PyErr (List (String × String) × List (String × String) × List Nat)) :=
  let queue := [root] ++
    (if recursive then (alookup t.parent_to_child root).getD [] else [])
  grlLoop t resource_type recursive queue [] [] [] none fuel

/-- Folding a whole sequence of `insert_node(ski, aki, data)` calls from the
freshly initialized tree (the build pass of `buildTree`). -/
def applyInserts (calls : List (String × String × NodeData)) : PKITree :=
  calls.foldl (fun t c => insert_node t c.1 c.2.1 c.2.2) emptyTree

/-! ### Concrete records and trees used by the counterexamples and
witnesses below -/

/-- A plain resource certificate record: no `tal`, no marker resources. -/
def dCa : NodeData :=
  { type := "ca_cert", tal := none, file := "repo/ca.cer", carepository := none,
    subordinate_resources := [], vrps := [] }

/-- A ROA record with the single VRP `{prefix: 10.1.1.0/24, asid: 65001}`. -/
def dRoa : NodeData :=
  { type := "roa", tal := none, file := "repo/r.roa", carepository := none,
    subordinate_resources := [], vrps := [{ pfx := "10.1.1.0/24", asid := 65001 }] }

/-- A tree holding just the ROA node `R` (a root). -/
def treeRoa : PKITree := insert_node emptyTree "R" "" dRoa

/-- A tree holding just the childless, non-RIR-owned `ca_cert` node `X`. -/
def treeCa : PKITree := insert_node emptyTree "X" "" dCa

/-- A tree built by `insert("A", "B"); insert("B", "A")`: the resulting
parent relation is the two-node cycle `A → B → A`. -/
def treeCycle : PKITree := insert_node (insert_node emptyTree "A" "B" dCa) "B" "A" dCa

/-- A tree built by the single call `insert("A", "B")`: node `B` is
referenced as a parent but has no record of its own. -/
def treeFwd : PKITree := insert_node emptyTree "A" "B" dCa

/-! ### C6 — duplicate insertion is a no-op -/

/-- C6: for every SKI already present in `node_data`, a second
`insert_node` call with that SKI (any `aki`, any `data`) returns before
touching anything, so `parent_to_child`, `child_to_parent` and `node_data`
are all exactly unchanged. -/
theorem insert_node_duplicate_noop (t : PKITree) (ski aki : String)
    (d : NodeData) (h : (alookup t.node_data ski).isSome) :
    insert_node t ski aki d = t := by
  unfold insert_node
  simp [h]

/-- Witness for C6 at a concrete input: `X` is present in `treeCa`, and
re-inserting it with a different parent and record changes nothing. -/
theorem insert_node_duplicate_noop_witness :
    (alookup treeCa.node_data "X").isSome = true ∧
      insert_node treeCa "X" "QQ" dRoa = treeCa :=
  ⟨by decide, insert_node_duplicate_noop treeCa "X" "QQ" dRoa (by decide)⟩

/-! ### C3 — `has_issued_roas` on a childless certificate -/

/-- C3 (failing input): `X` in `treeCa` is a `ca_cert`, is not RIR-owned,
and has no children at all, yet `has_issued_roas` returns `True` — the
`child_list is None` branch returns `True`, contradicting the claimed
"at least one direct child is a ROA" reading (and the function's own
documented meaning). -/
theorem has_issued_roas_childless_true :
    has_issued_roas treeCa "X" = .ok (some true) ∧
      get_children treeCa "X" = none ∧
      is_rir_owned_rc treeCa "X" = some false ∧
      (get_data treeCa "X").map NodeData.type = some "ca_cert" := by
  refine ⟨rfl, rfl, rfl, rfl⟩

/-! ### C1 — VRP origin ASNs leak into the collected ASN set -/

/-- C1 (failing input): collecting from the single ROA node `R` (any
traversal mode; here `resource_type = "all"`, `recursive = False`) puts the
VRP's prefix into the v4 result, as claimed — but its origin ASN 65001
*does* end up in the returned ASN list: `extract_vrps` appends each
`vrp["asid"]` to the enclosing `asn_list` (a closure capture), while the
local `origin_asn_list` it returns stays empty. -/
theorem get_resource_list_vrp_origin_asn_added :
    getResourceList treeRoa "R" "all" false 5 =
      some (.ok ([("10.1.1.0/24", "R")], [], [65001])) ∧
      65001 ∈ [65001] := by
  refine ⟨rfl, by decide⟩

/-! ### C10 — missing node data makes `get_resource_list` raise -/

/-- C10: the `if data is None: continue` guard in `get_resource_list` sits
after `self.get_data(child).copy()`, which dereferences the lookup result
first; on an SKI absent from `node_data` the very first loop iteration
raises `AttributeError` (for every `resource_type`, both traversal modes,
and any positive fuel), instead of skipping the node or returning empty
results. -/
theorem get_resource_list_missing_root_raises (t : PKITree) (root rt : String)
    (rec : Bool) (fuel : Nat) (h : alookup t.node_data root = none) :
    getResourceList t root rt rec (fuel + 1) = some (.error .attributeError) := by
  unfold getResourceList
  rw [grlLoop.eq_def]
  simp [grlStep, h]

/-- Witness for C10 at a concrete input: the empty tree has no data for
`Z`, and collection errors out at once. -/
theorem get_resource_list_missing_root_raises_witness :
    alookup emptyTree.node_data "Z" = none ∧
      getResourceList emptyTree "Z" "all" true 1 = some (.error .attributeError) :=
  ⟨rfl, get_resource_list_missing_root_raises emptyTree "Z" "all" true 0 rfl⟩

/-! ### C9 — `asrange` expansion -/

/-- The ASN contribution of a single resource descriptor in
`extract_resources`. -/
def resAsns : Resource → List Nat
  | .asid n => [n]
  | .asrange mn mx =>
    if mx = MAX_ASN_NUM then [] else List.range' mn (mx + 1 - mn)
  | _ => []

/-- The prefix contribution of a single resource descriptor in
`extract_resources`. -/
def resPfxList : Resource → List String
  | .ipPfx v => [v]
  | .ipRange mn mx => get_cidr mn mx
  | _ => []

theorem extractResourcesAux_eq (rs : List Resource) (ps : List String)
    (asns : List Nat) :
    extractResourcesAux rs ps asns =
      (ps ++ rs.flatMap resPfxList, asns ++ rs.flatMap resAsns) := by
  induction rs generalizing ps asns with
  | nil => simp [extractResourcesAux]
  | cons r rest ih =>
    cases r with
    | asrange mn mx =>
      by_cases hmx : mx = MAX_ASN_NUM <;>
        simp [extractResourcesAux, resPfxList, resAsns, hmx, ih]
    | _ => simp [extractResourcesAux, resPfxList, resAsns, ih]

theorem extract_resources_snd (rs : List Resource) :
    (extract_resources rs).2 = rs.flatMap resAsns := by
  simp [extract_resources, extractResourcesAux_eq]

/-- C9: in the descriptor scan of `get_resource_list`, an
`asrange[min,max]` descriptor contributes nothing to the extracted ASN
list when `max` equals the ASN-space ceiling `MAX_ASN_NUM` (it is only
logged), and otherwise contributes exactly the integers of `[min, max]`
(`range(min, max + 1)`), wherever it occurs in the descriptor list. -/
theorem extract_resources_asrange (rs1 rs2 : List Resource) (mn mx : Nat) :
    (extract_resources (rs1 ++ Resource.asrange mn mx :: rs2)).2 =
      (extract_resources rs1).2 ++
        (if mx = MAX_ASN_NUM then [] else List.range' mn (mx + 1 - mn)) ++
        (extract_resources rs2).2 ∧
    (∀ a : Nat, a ∈ List.range' mn (mx + 1 - mn) ↔ mn ≤ a ∧ a ≤ mx) := by
  constructor
  · simp [extract_resources_snd, resAsns]
  · intro a
    rw [List.mem_range']
    constructor
    · rintro ⟨i, hi, rfl⟩
      omega
    · rintro ⟨h1, h2⟩
      exact ⟨a - mn, by omega, by omega⟩

/-! ### Association-list lemmas -/

theorem alookup_aset_self {α : Type} (l : List (String × α)) (k : String) (v : α) :
    alookup (aset l k v) k = some v := by
  induction l with
  | nil => simp [aset, alookup]
  | cons p rest ih =>
    by_cases h : p.1 = k <;> simp [aset, alookup, h, ih]

theorem alookup_aset_ne {α : Type} (l : List (String × α)) (k k2 : String)
    (v : α) (h : k2 ≠ k) : alookup (aset l k v) k2 = alookup l k2 := by
  induction l with
  | nil => simp [aset, alookup, Ne.symm h]
  | cons p rest ih =>
    by_cases hp : p.1 = k <;> by_cases hp2 : p.1 = k2 <;>
      simp_all [aset, alookup]

theorem alookup_append_some {α : Type} (l1 l2 : List (String × α)) (k : String)
    (v : α) (h : alookup l1 k = some v) : alookup (l1 ++ l2) k = some v := by
  induction l1 with
  | nil => simp [alookup] at h
  | cons p rest ih =>
    by_cases hp : p.1 = k <;> simp_all [alookup]

theorem alookup_append_none {α : Type} (l1 l2 : List (String × α)) (k : String)
    (h : alookup l1 k = none) : alookup (l1 ++ l2) k = alookup l2 k := by
  induction l1 with
  | nil => simp [alookup]
  | cons p rest ih =>
    by_cases hp : p.1 = k <;> simp_all [alookup]

theorem alookup_append {α : Type} (l1 l2 : List (String × α)) (k : String) :
    alookup (l1 ++ l2) k =
      match alookup l1 k with
      | some v => some v
      | none => alookup l2 k := by
  cases h : alookup l1 k with
  | none => simpa using alookup_append_none l1 l2 k h
  | some v => simpa using alookup_append_some l1 l2 k v h

/-! ### C4 — lookups on an SKI with no node data -/

/-- C4 (counterexample): in the tree built by the single call
`insert("A", "B", dCa)` the SKI `B` has no node data, yet `get_children`
returns the non-empty child list `["A"]` rather than a not-found sentinel,
and `get_ca_domain` raises `TypeError` rather than returning a sentinel;
the fully unknown SKI `Z` also has no node data and `get_path` on it
raises `TypeError` (after appending `Z`, its parent lookup yields `None`
and the next `len(None)` fails). -/
theorem unknown_ski_lookup_counterexample :
    get_data treeFwd "B" = none ∧
      get_children treeFwd "B" = some ["A"] ∧
      get_ca_domain treeFwd "B" = .error .typeError ∧
      get_data treeFwd "Z" = none ∧
      getPathFuel treeFwd (some "Z") [] 3 = some (.error .typeError) := by
  refine ⟨rfl, rfl, rfl, rfl, rfl⟩

/-- C4 (amended): for an SKI absent from `node_data`, `get_data` and
`get_url` return the `None` sentinel and `get_ca_domain` raises
`TypeError`; when the SKI is additionally absent from the parent and
children maps (it was never referenced as a parent either), `get_parent`
and `get_children` return `None` as well, and `get_path` on a non-empty
such SKI raises `TypeError` (with any sufficient fuel) instead of
returning a sentinel. -/
theorem unknown_ski_lookup_behaviour (t : PKITree) (ski : String)
    (h1 : alookup t.node_data ski = none)
    (h2 : alookup t.child_to_parent ski = none)
    (h3 : alookup t.parent_to_child ski = none)
    (h4 : ski ≠ "") :
    get_data t ski = none ∧ get_parent t ski = none ∧
      get_children t ski = none ∧ get_url t ski = none ∧
      get_ca_domain t ski = .error .typeError ∧
      (∀ n, getPathFuel t (some ski) [] (n + 2) = some (.error .typeError)) := by
  refine ⟨h1, h2, h3, ?_, ?_, ?_⟩
  · simp [get_url, get_data, h1]
  · simp [get_ca_domain, get_data, h1]
  · intro n
    have hlen : ¬ ski.length = 0 := by
      intro hc
      apply h4
      cases ski with
      | mk l =>
        have hl : l = [] := List.length_eq_zero.mp hc
        subst hl
        rfl
    rw [getPathFuel]
    simp only [if_neg hlen]
    have hp : get_parent t ski = none := h2
    rw [hp]
    simp [getPathFuel]

/-- Witness for C4 (amended) at a concrete input: the empty tree and the
SKI `Z`. -/
theorem unknown_ski_lookup_behaviour_witness :
    get_data emptyTree "Z" = none ∧ get_parent emptyTree "Z" = none ∧
      get_children emptyTree "Z" = none ∧ get_url emptyTree "Z" = none ∧
      get_ca_domain emptyTree "Z" = .error .typeError ∧
      (∀ n, getPathFuel emptyTree (some "Z") [] (n + 2) =
        some (.error .typeError)) :=
  unknown_ski_lookup_behaviour emptyTree "Z" rfl rfl rfl (by decide)

/-! ### C5 / C7 — the parent entry written by `insert_node` -/

/-- Invariant of every reachable `PKITree` state: a non-empty
`child_to_parent` value only ever exists for an SKI whose record is in
`node_data` (the only assignment of a non-empty parent string is the one
performed for a freshly inserted SKI). -/
def cpInv (t : PKITree) : Prop :=
  ∀ k v, alookup t.child_to_parent k = some v → v ≠ "" →
    (alookup t.node_data k).isSome

theorem cpInv_empty : cpInv emptyTree := by
  intro k v hk
  simp [emptyTree, alookup] at hk

/-- For a fresh SKI in an invariant-respecting state, the
`child_to_parent[ski]` guard value of `insert_node` is the empty string,
so the early return on line 76 of PKITree.py is not taken. -/
theorem fresh_guard (t : PKITree) (ski : String) (hinv : cpInv t)
    (h : alookup t.node_data ski = none) :
    ((alookup t.child_to_parent ski).getD "") = "" := by
  cases hcp : alookup t.child_to_parent ski with
  | none => rfl
  | some v =>
    by_cases hv : v = ""
    · simp [hv]
    · have := hinv ski v hcp hv
      rw [h] at this
      simp at this

/-- The `child_to_parent` map produced by a fresh (non-duplicate,
guard-passing) `insert_node` run: the defaultdict read may first
materialize `(ski, "")`, then `child_to_parent[ski] = aki2` is assigned,
then `aki2` is pre-seeded with an empty parent entry if absent. -/
def cp2Of (cp : List (String × String)) (ski aki2 : String) :
    List (String × String) :=
  let cp0 := if (alookup cp ski).isSome then cp else cp ++ [(ski, "")]
  let cp1 := aset cp0 ski aki2
  if (alookup cp1 aki2).isSome then cp1 else cp1 ++ [(aki2, "")]

/-- The `parent_to_child` map produced by a fresh `insert_node` run. -/
def p2cOf (p2c : List (String × List String)) (ski aki : String) :
    List (String × List String) :=
  if ski ≠ aki then aset p2c aki ((alookup p2c aki).getD [] ++ [ski]) else p2c

/-- On a fresh SKI in an invariant-respecting state, `insert_node` takes
the main path and produces exactly the three updated maps. -/
theorem insert_node_fresh (t : PKITree) (ski aki : String) (d : NodeData)
    (hinv : cpInv t) (h : alookup t.node_data ski = none) :
    insert_node t ski aki d =
      { parent_to_child := p2cOf t.parent_to_child ski aki,
        child_to_parent :=
          cp2Of t.child_to_parent ski (if ski = aki then "" else aki),
        node_data := aset t.node_data ski d } := by
  have hg := fresh_guard t ski hinv h
  unfold insert_node
  rw [if_neg (by simp [h])]
  rw [if_neg (by rw [hg]; decide)]
  rfl

theorem alookup_cp2Of_self (cp : List (String × String)) (ski aki2 : String) :
    alookup (cp2Of cp ski aki2) ski = some aki2 := by
  unfold cp2Of
  by_cases h1 : (alookup (aset (if (alookup cp ski).isSome then cp
      else cp ++ [(ski, "")]) ski aki2) aki2).isSome
  · simp only [if_pos h1]
    exact alookup_aset_self _ _ _
  · simp only [if_neg h1]
    exact alookup_append_some _ _ _ _ (alookup_aset_self _ _ _)

theorem alookup_cp2Of_aki2 (cp : List (String × String)) (ski aki2 : String) :
    (alookup (cp2Of cp ski aki2) aki2).isSome := by
  unfold cp2Of
  by_cases h1 : (alookup (aset (if (alookup cp ski).isSome then cp
      else cp ++ [(ski, "")]) ski aki2) aki2).isSome
  · simpa only [if_pos h1] using h1
  · simp only [if_neg h1]
    rw [alookup_append_none _ _ _ (by
      cases hx : alookup (aset (if (alookup cp ski).isSome then cp
        else cp ++ [(ski, "")]) ski aki2) aki2 with
      | none => rfl
      | some w => rw [hx] at h1; simp at h1)]
    simp [alookup]

theorem alookup_cp0_ne (cp : List (String × String)) (ski k : String)
    (hk : k ≠ ski) :
    alookup (if (alookup cp ski).isSome then cp else cp ++ [(ski, "")]) k =
      alookup cp k := by
  by_cases h1 : (alookup cp ski).isSome
  · simp only [if_pos h1]
  · simp only [if_neg h1]
    cases hx : alookup cp k with
    | some v => exact alookup_append_some _ _ _ _ hx
    | none =>
      rw [alookup_append_none _ _ _ hx]
      simp [alookup, Ne.symm hk]

theorem alookup_cp2Of_mono (cp : List (String × String)) (ski aki2 k : String)
    (v : String) (hv : alookup cp k = some v) :
    (alookup (cp2Of cp ski aki2) k).isSome := by
  by_cases hk : k = ski
  · subst hk
    rw [alookup_cp2Of_self]
    rfl
  · unfold cp2Of
    have h01 : alookup (aset (if (alookup cp ski).isSome then cp
        else cp ++ [(ski, "")]) ski aki2) k = some v := by
      rw [alookup_aset_ne _ _ _ _ hk, alookup_cp0_ne _ _ _ hk]
      exact hv
    by_cases h1 : (alookup (aset (if (alookup cp ski).isSome then cp
        else cp ++ [(ski, "")]) ski aki2) aki2).isSome
    · simp only [if_pos h1]
      rw [h01]
      rfl
    · simp only [if_neg h1]
      rw [alookup_append_some _ _ _ _ h01]
      rfl

theorem alookup_cp2Of_cases (cp : List (String × String)) (ski aki2 k : String)
    (v : String) (hk : k ≠ ski)
    (h : alookup (cp2Of cp ski aki2) k = some v) :
    alookup cp k = some v ∨ v = "" := by
  unfold cp2Of at h
  have hcp1 : alookup (aset (if (alookup cp ski).isSome then cp
      else cp ++ [(ski, "")]) ski aki2) k = alookup cp k := by
    rw [alookup_aset_ne _ _ _ _ hk, alookup_cp0_ne _ _ _ hk]
  by_cases h1 : (alookup (aset (if (alookup cp ski).isSome then cp
      else cp ++ [(ski, "")]) ski aki2) aki2).isSome
  · rw [if_pos h1, hcp1] at h
    exact Or.inl h
  · rw [if_neg h1] at h
    cases hx : alookup cp k with
    | some w =>
      rw [alookup_append_some _ _ _ _ (hcp1.trans hx)] at h
      exact Or.inl h
    | none =>
      rw [alookup_append_none _ _ _ (hcp1.trans hx)] at h
      by_cases hka : aki2 = k
      · simp [alookup, hka] at h
        exact Or.inr h.symm
      · simp [alookup, hka] at h

/-- `insert_node` preserves the reachable-state invariant. -/
theorem cpInv_insert (t : PKITree) (ski aki : String) (d : NodeData)
    (hinv : cpInv t) : cpInv (insert_node t ski aki d) := by
  by_cases hdup : (alookup t.node_data ski).isSome
  · have hid : insert_node t ski aki d = t := by
      unfold insert_node
      rw [if_pos hdup]
    rw [hid]
    exact hinv
  · have h : alookup t.node_data ski = none := by
      cases hx : alookup t.node_data ski with
      | none => rfl
      | some w => rw [hx] at hdup; simp at hdup
    rw [insert_node_fresh t ski aki d hinv h]
    intro k v hk hv
    by_cases hks : k = ski
    · subst hks
      simp [alookup_aset_self]
    · simp only at hk ⊢
      rw [alookup_aset_ne _ _ _ _ hks]
      rcases alookup_cp2Of_cases _ _ _ _ _ hks hk with hold | hemp
      · exact hinv k v hold hv
      · exact absurd hemp hv

/-- Every state reached from the empty tree by a fold of `insert_node`
calls satisfies the invariant. -/
theorem cpInv_foldl (calls : List (String × String × NodeData)) (t : PKITree)
    (hinv : cpInv t) :
    cpInv (calls.foldl (fun s c => insert_node s c.1 c.2.1 c.2.2) t) := by
  induction calls generalizing t with
  | nil => exact hinv
  | cons c rest ih => exact ih _ (cpInv_insert _ _ _ _ hinv)

theorem cpInv_applyInserts (calls : List (String × String × NodeData)) :
    cpInv (applyInserts calls) :=
  cpInv_foldl calls emptyTree cpInv_empty

/-! ### C5 — the parent recorded for a freshly inserted SKI -/

/-- C5: in any state reachable by a sequence of `insert_node` calls, a
further `insert_node(ski, aki, data)` on a fresh `ski` (no node data yet)
records `parent[ski] = aki`, except that a self-referential `aki == ski`
is cleared to the empty string. -/
theorem insert_fresh_get_parent (calls : List (String × String × NodeData))
    (ski aki : String) (d : NodeData)
    (h : alookup (applyInserts calls).node_data ski = none) :
    get_parent (insert_node (applyInserts calls) ski aki d) ski =
      some (if ski = aki then "" else aki) := by
  rw [insert_node_fresh _ _ _ _ (cpInv_applyInserts calls) h]
  unfold get_parent
  exact alookup_cp2Of_self _ _ _

/-- Witness for C5 at concrete inputs: a fresh insert with a distinct
parent, and a fresh self-referential insert. -/
theorem insert_fresh_get_parent_witness :
    get_parent (insert_node (applyInserts []) "A" "B" dCa) "A" = some "B" ∧
      get_parent (insert_node (applyInserts [("A", "B", dCa)]) "S" "S" dCa) "S" =
        some "" := by
  constructor
  · have hfresh : alookup (applyInserts []).node_data "A" = none := rfl
    have := insert_fresh_get_parent [] "A" "B" dCa hfresh
    simpa using this
  · have hfresh : alookup (applyInserts [("A", "B", dCa)]).node_data "S" = none := rfl
    have := insert_fresh_get_parent [("A", "B", dCa)] "S" "S" dCa hfresh
    simpa using this

/-! ### C7 — parents referenced by an insert keep a parent-map entry -/

/-- `insert_node` never removes a `child_to_parent` entry (on
invariant-respecting states). -/
theorem get_parent_isSome_insert (t : PKITree) (ski aki : String)
    (d : NodeData) (k : String) (hinv : cpInv t)
    (hk : (get_parent t k).isSome) :
    (get_parent (insert_node t ski aki d) k).isSome := by
  by_cases hdup : (alookup t.node_data ski).isSome
  · have hid : insert_node t ski aki d = t := by
      unfold insert_node
      rw [if_pos hdup]
    rw [hid]
    exact hk
  · have h : alookup t.node_data ski = none := by
      cases hx : alookup t.node_data ski with
      | none => rfl
      | some w => rw [hx] at hdup; simp at hdup
    rw [insert_node_fresh t ski aki d hinv h]
    unfold get_parent at hk ⊢
    cases hx : alookup t.child_to_parent k with
    | none => rw [hx] at hk; simp at hk
    | some v => exact alookup_cp2Of_mono _ _ _ _ _ hx

/-- A `child_to_parent` entry survives any further fold of `insert_node`
calls. -/
theorem get_parent_isSome_foldl (calls : List (String × String × NodeData))
    (t : PKITree) (k : String) (hinv : cpInv t)
    (hk : (get_parent t k).isSome) :
    (get_parent (calls.foldl (fun s c => insert_node s c.1 c.2.1 c.2.2) t)
      k).isSome := by
  induction calls generalizing t with
  | nil => exact hk
  | cons c rest ih =>
    exact ih _ (cpInv_insert _ _ _ _ hinv)
      (get_parent_isSome_insert _ _ _ _ _ hinv hk)

/-- C7: after any sequence of `insert_node` calls, the `aki` of every call
that actually inserted its record (its `ski` was fresh at that point) has
an entry in `child_to_parent`, so `get_parent` on it returns a string —
possibly empty — rather than the `None` sentinel, even if that `aki`'s own
record was never inserted. -/
theorem referenced_aki_has_parent_entry
    (pre post : List (String × String × NodeData)) (ski aki : String)
    (d : NodeData)
    (h : alookup (applyInserts pre).node_data ski = none) :
    (get_parent (applyInserts (pre ++ (ski, aki, d) :: post)) aki).isSome := by
  unfold applyInserts
  rw [List.foldl_append, List.foldl_cons]
  have hinv : cpInv (applyInserts pre) := cpInv_applyInserts pre
  have hstep :
      (get_parent (insert_node (applyInserts pre) ski aki d) aki).isSome := by
    rw [insert_node_fresh _ _ _ _ hinv h]
    unfold get_parent
    by_cases hsa : ski = aki
    · subst hsa
      rw [if_pos rfl]
      show (alookup (cp2Of (applyInserts pre).child_to_parent ski "")
        ski).isSome = true
      rw [alookup_cp2Of_self]
      rfl
    · rw [if_neg hsa]
      exact alookup_cp2Of_aki2 _ _ _
  exact get_parent_isSome_foldl post _ aki (cpInv_insert _ _ _ _ hinv) hstep

/-- Witness for C7 at a concrete input: after `insert("A", "B")` followed
by an unrelated insert, the never-inserted parent `B` still has a parent
entry. -/
theorem referenced_aki_has_parent_entry_witness :
    alookup (applyInserts []).node_data "A" = none ∧
      (get_parent (applyInserts ([] ++ ("A", "B", dCa) :: [("C", "", dCa)]))
        "B").isSome :=
  ⟨rfl, referenced_aki_has_parent_entry [] [("C", "", dCa)] "A" "B" dCa rfl⟩

/-! ### C2 — `get_path` on cyclic parent chains -/

theorem string_length_eq_zero (s : String) : s.length = 0 ↔ s = "" := by
  constructor
  · intro h
    cases s with
    | mk l =>
      have hl : l = [] := List.length_eq_zero.mp h
      subst hl
      rfl
  · intro h
    subst h
    rfl

/-- The step equation of the `get_path` loop on a non-`None` current SKI. -/
theorem getPathFuel_succ (t : PKITree) (s : String) (acc : List String)
    (n : Nat) :
    getPathFuel t (some s) acc (n + 1) =
      if s.length = 0 then some (.ok acc)
      else if get_parent t s = some s then some (.ok (acc ++ [s]))
      else getPathFuel t (get_parent t s) (acc ++ [s]) n := rfl

theorem treeCycle_step_a (acc : List String) (n : Nat) :
    getPathFuel treeCycle (some "A") acc (n + 1) =
      getPathFuel treeCycle (some "B") (acc ++ ["A"]) n := rfl

theorem treeCycle_step_b (acc : List String) (n : Nat) :
    getPathFuel treeCycle (some "B") acc (n + 1) =
      getPathFuel treeCycle (some "A") (acc ++ ["B"]) n := rfl

theorem treeCycle_no_fuel :
    ∀ (n : Nat) (acc : List String),
      getPathFuel treeCycle (some "A") acc n = none ∧
        getPathFuel treeCycle (some "B") acc n = none := by
  intro n
  induction n with
  | zero => exact fun acc => ⟨rfl, rfl⟩
  | succ n ih =>
    exact fun acc =>
      ⟨(treeCycle_step_a acc n).trans (ih (acc ++ ["A"])).2,
       (treeCycle_step_b acc n).trans (ih (acc ++ ["B"])).1⟩

/-- C2 (counterexample): `insert_node` does build the two-node parent
cycle `A → B → A` (from `insert("A","B"); insert("B","A")`); every
`parentOf` lookup along it stays defined, yet `get_path("A")` never
finishes within any fuel — the loop runs forever. -/
theorem get_path_cycle_diverges :
    get_parent treeCycle "A" = some "B" ∧
      get_parent treeCycle "B" = some "A" ∧
      ¬ getPathTerminates treeCycle "A" := by
  refine ⟨rfl, rfl, ?_⟩
  rintro ⟨n, hn⟩
  rw [(treeCycle_no_fuel n []).1] at hn
  simp at hn

/-- Accumulator shape of a normally returning `get_path` run: the result
extends the accumulator, starting with the current SKI when it is
non-empty. -/
theorem getPath_acc_shape (t : PKITree) :
    ∀ (n : Nat) (s : String) (acc l : List String),
      getPathFuel t (some s) acc n = some (.ok l) →
      (s = "" ∧ l = acc) ∨ ∃ rest, l = acc ++ s :: rest := by
  intro n
  induction n with
  | zero =>
    intro s acc l h
    simp [getPathFuel] at h
  | succ n ih =>
    intro s acc l h
    rw [getPathFuel_succ] at h
    by_cases hs : s.length = 0
    · rw [if_pos hs] at h
      simp only [Option.some.injEq, Except.ok.injEq] at h
      exact Or.inl ⟨(string_length_eq_zero s).mp hs, h.symm⟩
    · rw [if_neg hs] at h
      by_cases hp : get_parent t s = some s
      · rw [if_pos hp] at h
        simp only [Option.some.injEq, Except.ok.injEq] at h
        refine Or.inr ⟨[], ?_⟩
        rw [← h]
      · rw [if_neg hp] at h
        cases hpar : get_parent t s with
        | none =>
          rw [hpar] at h
          cases n with
          | zero => simp [getPathFuel] at h
          | succ m => simp [getPathFuel] at h
        | some p =>
          rw [hpar] at h
          rcases ih p (acc ++ [s]) l h with ⟨hp0, hl⟩ | ⟨rest, hl⟩
          · refine Or.inr ⟨[], ?_⟩
            rw [hl]
          · refine Or.inr ⟨p :: rest, ?_⟩
            rw [hl]
            simp

/-- When a normally returning `get_path` run ends, the last entry of the
result has an empty or self-referential parent (given that the property
already holds of the accumulator's last entry in case the run ends
immediately on an empty current SKI). -/
theorem getPath_last_root (t : PKITree) :
    ∀ (n : Nat) (s : String) (acc l : List String),
      getPathFuel t (some s) acc n = some (.ok l) →
      (s = "" → ∀ z, acc.getLast? = some z →
        get_parent t z = some "" ∨ get_parent t z = some z) →
      ∀ z, l.getLast? = some z →
        get_parent t z = some "" ∨ get_parent t z = some z := by
  intro n
  induction n with
  | zero =>
    intro s acc l h
    simp [getPathFuel] at h
  | succ n ih =>
    intro s acc l h hacc z hz
    rw [getPathFuel_succ] at h
    by_cases hs : s.length = 0
    · rw [if_pos hs] at h
      simp only [Option.some.injEq, Except.ok.injEq] at h
      subst h
      exact hacc ((string_length_eq_zero s).mp hs) z hz
    · rw [if_neg hs] at h
      by_cases hp : get_parent t s = some s
      · rw [if_pos hp] at h
        simp only [Option.some.injEq, Except.ok.injEq] at h
        subst h
        rw [List.getLast?_concat] at hz
        cases hz
        exact Or.inr hp
      · rw [if_neg hp] at h
        cases hpar : get_parent t s with
        | none =>
          rw [hpar] at h
          cases n with
          | zero => simp [getPathFuel] at h
          | succ m => simp [getPathFuel] at h
        | some p =>
          rw [hpar] at h
          refine ih p (acc ++ [s]) l h ?_ z hz
          intro hp0 w hw
          rw [List.getLast?_concat] at hw
          cases hw
          left
          rw [hpar, hp0]

/-- C2 (amended): when the `get_path` walk from a non-empty SKI terminates
normally (some fuel suffices and no `TypeError` is hit) — which fails for
multi-node parent cycles, which `insert_node` can build — the returned
list starts at the given SKI and its last node has an empty or
self-referential parent. -/
theorem get_path_shape_of_terminating (t : PKITree) (ski : String) (n : Nat)
    (l : List String) (h1 : ski ≠ "")
    (h2 : getPathFuel t (some ski) [] n = some (.ok l)) :
    l.head? = some ski ∧
      ∃ z, l.getLast? = some z ∧
        (get_parent t z = some "" ∨ get_parent t z = some z) := by
  rcases getPath_acc_shape t n ski [] l h2 with ⟨hs, _⟩ | ⟨rest, hl⟩
  · exact absurd hs h1
  · have hlst : l.getLast?.isSome := by
      rw [List.getLast?_isSome, hl]
      simp
    rcases Option.isSome_iff_exists.mp hlst with ⟨z, hz⟩
    refine ⟨?_, z, hz, ?_⟩
    · rw [hl]
      rfl
    · exact getPath_last_root t n ski [] l h2 (fun hski => absurd hski h1) z hz

/-- Witness for C2 (amended) at a concrete input: in the two-node chain
`A → B`, the walk from `A` returns `["A", "B"]`, which starts at `A` and
ends at `B`, whose parent entry is the empty string. -/
theorem get_path_shape_of_terminating_witness :
    (["A", "B"] : List String).head? = some "A" ∧
      ∃ z, (["A", "B"] : List String).getLast? = some z ∧
        (get_parent treeFwd z = some "" ∨ get_parent treeFwd z = some z) :=
  get_path_shape_of_terminating treeFwd "A" 3 ["A", "B"] (by decide) rfl

/-! ### C8 — correctness of the greedy CIDR summarization -/

theorem tzCap_le (n b : Nat) : tzCap n b ≤ b := by
  induction b generalizing n with
  | zero => simp [tzCap]
  | succ b ih =>
    by_cases h : n % 2 = 1
    · simp [tzCap, h]
    · simp only [tzCap, if_neg h]
      have := ih (n / 2)
      omega

theorem pow_tzCap_dvd (n b : Nat) : 2 ^ tzCap n b ∣ n := by
  induction b generalizing n with
  | zero => simp [tzCap]
  | succ b ih =>
    by_cases h : n % 2 = 1
    · simp [tzCap, h]
    · have h2 : n % 2 = 0 := by omega
      have hn : n = 2 * (n / 2) := by omega
      rcases ih (n / 2) with ⟨c, hc⟩
      rw [tzCap, if_neg h, pow_succ]
      refine ⟨c, ?_⟩
      have hx : n = 2 * (2 ^ tzCap (n / 2) b * c) := by
        rw [← hc]
        omega
      nth_rewrite 1 [hx]
      ring

theorem le_tzCap (n m b : Nat) (hn : n ≠ 0) (hd : 2 ^ m ∣ n) (hm : m ≤ b) :
    m ≤ tzCap n b := by
  induction b generalizing n m with
  | zero => omega
  | succ b ih =>
    cases m with
    | zero => exact Nat.zero_le _
    | succ m =>
      rcases hd with ⟨c, hc⟩
      have hc2 : n = 2 * (2 ^ m * c) := by
        rw [hc]
        ring
      have heven : n % 2 = 0 := by omega
      rw [tzCap, if_neg (by omega)]
      have hd2 : 2 ^ m ∣ n / 2 := ⟨c, by omega⟩
      have hn2 : n / 2 ≠ 0 := by omega
      have := ih (n / 2) m hn2 hd2 (by omega)
      omega

theorem pow_countRh_dvd (n : Nat) : 2 ^ countRh n 32 ∣ n := by
  by_cases h : n = 0
  · simp [h]
  · rw [countRh, if_neg h]
    exact pow_tzCap_dvd n 32

theorem countRh_le_32 (n : Nat) : countRh n 32 ≤ 32 := by
  by_cases h : n = 0
  · simp [countRh, h]
  · rw [countRh, if_neg h]
    exact tzCap_le n 32

theorem le_countRh (n m : Nat) (hd : 2 ^ m ∣ n) (hm : m ≤ 32) :
    m ≤ countRh n 32 := by
  by_cases h : n = 0
  · simp [countRh, h, hm]
  · rw [countRh, if_neg h]
    exact le_tzCap n m 32 h hd hm

theorem pow_log2_le (n : Nat) (h : n ≠ 0) : 2 ^ Nat.log2 n ≤ n :=
  (Nat.le_log2 h).mp le_rfl

theorem le_log2 (m n : Nat) (h : 2 ^ m ≤ n) : m ≤ Nat.log2 n := by
  have h1 : 0 < 2 ^ m := Nat.pos_pow_of_pos m (by norm_num)
  exact (Nat.le_log2 (by omega)).mpr h

theorem nbitsOf_dvd (a b : Nat) : 2 ^ nbitsOf a b ∣ a :=
  dvd_trans (pow_dvd_pow 2 (min_le_left _ _)) (pow_countRh_dvd a)

theorem nbitsOf_le_32 (a b : Nat) : nbitsOf a b ≤ 32 :=
  le_trans (min_le_left _ _) (countRh_le_32 a)

theorem nbitsOf_fits (a b : Nat) (h : a ≤ b) : a + 2 ^ nbitsOf a b ≤ b + 1 := by
  have h1 : 2 ^ nbitsOf a b ≤ 2 ^ Nat.log2 (b - a + 1) :=
    Nat.pow_le_pow_right (by norm_num) (min_le_right _ _)
  have h2 : 2 ^ Nat.log2 (b - a + 1) ≤ b - a + 1 :=
    pow_log2_le _ (by omega)
  omega

theorem summarize_pos (a b : Nat) (h : a ≤ b) :
    summarize a b = (a, nbitsOf a b) :: summarize (a + 2 ^ nbitsOf a b) b := by
  rw [summarize]
  rw [dif_pos h]

theorem summarize_neg (a b : Nat) (h : ¬ a ≤ b) : summarize a b = [] := by
  rw [summarize]
  rw [dif_neg h]

/-- Every emitted block starts no earlier than `first` and ends inside the
range. -/
theorem summarize_block_bounds (a b : Nat) :
    ∀ p ∈ summarize a b, a ≤ p.1 ∧ p.1 + 2 ^ p.2 ≤ b + 1 := by
  induction a, b using summarize.induct with
  | case1 a b h ih =>
    intro p hp
    rw [summarize_pos a b h] at hp
    rcases List.mem_cons.mp hp with hp | hp
    · subst hp
      exact ⟨le_rfl, nbitsOf_fits a b h⟩
    · have := ih p hp
      have h0 : 0 < 2 ^ nbitsOf a b := Nat.pos_pow_of_pos _ (by norm_num)
      omega
  | case2 a b h =>
    intro p hp
    rw [summarize_neg a b h] at hp
    simp at hp

/-- Every emitted block is a valid CIDR block: its base is aligned to its
size and its size exponent is at most 32. -/
theorem summarize_block_valid (a b : Nat) :
    ∀ p ∈ summarize a b, 2 ^ p.2 ∣ p.1 ∧ p.2 ≤ 32 := by
  induction a, b using summarize.induct with
  | case1 a b h ih =>
    intro p hp
    rw [summarize_pos a b h] at hp
    rcases List.mem_cons.mp hp with hp | hp
    · subst hp
      exact ⟨nbitsOf_dvd a b, nbitsOf_le_32 a b⟩
    · exact ih p hp
  | case2 a b h =>
    intro p hp
    rw [summarize_neg a b h] at hp
    simp at hp

/-- Consecutive emitted blocks are contiguous: each block ends exactly
where the next one starts (so in particular the list is ordered by
strictly increasing base address). -/
theorem summarize_chain (a b : Nat) :
    List.Chain' (fun p q : Nat × Nat => p.1 + 2 ^ p.2 = q.1) (summarize a b) := by
  induction a, b using summarize.induct with
  | case1 a b h ih =>
    rw [summarize_pos a b h]
    rw [List.chain'_cons']
    refine ⟨?_, ih⟩
    intro q hq
    by_cases h2 : a + 2 ^ nbitsOf a b ≤ b
    · rw [summarize_pos _ _ h2] at hq
      simp only [List.head?_cons, Option.mem_def, Option.some.injEq] at hq
      subst hq
      rfl
    · rw [summarize_neg _ _ h2] at hq
      simp at hq
  | case2 a b h =>
    rw [summarize_neg a b h]
    exact List.chain'_nil

/-- The emitted blocks exactly cover the inclusive range `[a, b]`. -/
theorem summarize_cover (a b : Nat) :
    ∀ x, (a ≤ x ∧ x ≤ b) ↔ ∃ p ∈ summarize a b, p.1 ≤ x ∧ x < p.1 + 2 ^ p.2 := by
  induction a, b using summarize.induct with
  | case1 a b h ih =>
    intro x
    constructor
    · rintro ⟨hax, hxb⟩
      by_cases hx : x < a + 2 ^ nbitsOf a b
      · exact ⟨(a, nbitsOf a b), by rw [summarize_pos a b h]; simp, hax, hx⟩
      · have hx2 : a + 2 ^ nbitsOf a b ≤ x := by omega
        rcases (ih x).mp ⟨hx2, hxb⟩ with ⟨p, hp, hpx⟩
        exact ⟨p, by rw [summarize_pos a b h]; simp [hp], hpx⟩
    · rintro ⟨p, hp, hpx1, hpx2⟩
      rw [summarize_pos a b h] at hp
      rcases List.mem_cons.mp hp with hp | hp
      · subst hp
        have := nbitsOf_fits a b h
        simp only at hpx1 hpx2
        omega
      · have h1 := (ih x).mpr ⟨p, hp, hpx1, hpx2⟩
        have h0 : 0 < 2 ^ nbitsOf a b := Nat.pos_pow_of_pos _ (by norm_num)
        omega
  | case2 a b h =>
    intro x
    rw [summarize_neg a b h]
    simp
    omega

/-- Inside a block of size `2 ^ k` aligned at `a`, the greedy step at
`a + 2 ^ m` (for `m < k`) picks exactly size exponent `m`. -/
theorem nbits_at_step (a b k m : Nat) (hm : m < k) (hk : 2 ^ k ∣ a)
    (hfit : a + 2 ^ k ≤ b + 1) (hk32 : k ≤ 32) :
    nbitsOf (a + 2 ^ m) b = m := by
  have hpos : 0 < 2 ^ m := Nat.pos_pow_of_pos _ (by norm_num)
  have hd : 2 ^ m ∣ a + 2 ^ m :=
    dvd_add (dvd_trans (pow_dvd_pow 2 hm.le) hk) dvd_rfl
  have hub : countRh (a + 2 ^ m) 32 ≤ m := by
    by_contra hc
    push_neg at hc
    have hdm : 2 ^ (m + 1) ∣ a + 2 ^ m :=
      dvd_trans (pow_dvd_pow 2 hc) (pow_countRh_dvd _)
    have ha : 2 ^ (m + 1) ∣ a := dvd_trans (pow_dvd_pow 2 hm) hk
    have hsub : 2 ^ (m + 1) ∣ (a + 2 ^ m - a) := Nat.dvd_sub' hdm ha
    have heq : a + 2 ^ m - a = 2 ^ m := by omega
    rw [heq] at hsub
    have hle : 2 ^ (m + 1) ≤ 2 ^ m := Nat.le_of_dvd hpos hsub
    have hlt : 2 ^ m < 2 ^ (m + 1) := Nat.pow_lt_pow_succ (by norm_num)
    omega
  have hlb : m ≤ countRh (a + 2 ^ m) 32 := le_countRh _ m hd (by omega)
  have hcr : countRh (a + 2 ^ m) 32 = m := le_antisymm hub hlb
  have hlog : m ≤ Nat.log2 (b - (a + 2 ^ m) + 1) := by
    apply le_log2
    have h1 : 2 ^ (m + 1) ≤ 2 ^ k := Nat.pow_le_pow_right (by norm_num) hm
    have h2 : 2 ^ (m + 1) = 2 ^ m + 2 ^ m := by
      rw [pow_succ]
      ring
    omega
  rw [nbitsOf, hcr]
  exact Nat.min_eq_left hlog

/-- Starting inside an aligned block of size `2 ^ k` at offset `2 ^ m`,
the greedy pass emits exactly `k - m` doubling blocks before reaching the
end of that block. -/
theorem summarize_fill :
    ∀ (d m k a b : Nat), k - m = d → m ≤ k → 2 ^ k ∣ a →
      a + 2 ^ k ≤ b + 1 → k ≤ 32 →
      (summarize (a + 2 ^ m) b).length =
        d + (summarize (a + 2 ^ k) b).length := by
  intro d
  induction d with
  | zero =>
    intro m k a b hd hm hdvd hfit hk32
    have hmk : m = k := by omega
    subst hmk
    simp
  | succ d ih =>
    intro m k a b hd hm hdvd hfit hk32
    have hmk : m < k := by omega
    have hnb : nbitsOf (a + 2 ^ m) b = m := nbits_at_step a b k m hmk hdvd hfit hk32
    have hstep : a + 2 ^ m ≤ b := by
      have h1 : 2 ^ (m + 1) ≤ 2 ^ k := Nat.pow_le_pow_right (by norm_num) hmk
      have h2 : 2 ^ (m + 1) = 2 ^ m + 2 ^ m := by
        rw [pow_succ]
        ring
      have h3 : 0 < 2 ^ m := Nat.pos_pow_of_pos _ (by norm_num)
      omega
    rw [summarize_pos _ _ hstep, hnb]
    have hnext : a + 2 ^ m + 2 ^ m = a + 2 ^ (m + 1) := by
      rw [pow_succ]
      ring
    rw [List.length_cons, hnext,
      ih (m + 1) k a b (by omega) (by omega) hdvd hfit hk32]
    omega

/-- Membership of an address in a `(base, sizeExponent)` block. -/
def inBlk (p : Nat × Nat) (x : Nat) : Prop :=
  p.1 ≤ x ∧ x < p.1 + 2 ^ p.2

/-- Two blocks share no address. -/
def blkDisjoint (p q : Nat × Nat) : Prop :=
  ∀ x, ¬ (inBlk p x ∧ inBlk q x)

theorem blkDisjoint_symm : Symmetric blkDisjoint := by
  intro p q h x hx
  exact h x ⟨hx.2, hx.1⟩

theorem blkDisjoint_irrefl (p : Nat × Nat) : ¬ blkDisjoint p p := by
  intro h
  have hpos : 0 < 2 ^ p.2 := Nat.pos_pow_of_pos _ (by norm_num)
  exact h p.1 ⟨⟨le_rfl, by omega⟩, ⟨le_rfl, by omega⟩⟩

/-- Two aligned blocks sharing an address are nested (the one with the
smaller size exponent is contained in the other). -/
theorem aligned_laminar (b1 k1 b2 k2 x : Nat) (h1 : 2 ^ k1 ∣ b1)
    (h2 : 2 ^ k2 ∣ b2) (hx1 : b1 ≤ x ∧ x < b1 + 2 ^ k1)
    (hx2 : b2 ≤ x ∧ x < b2 + 2 ^ k2) (hk : k1 ≤ k2) :
    b2 ≤ b1 ∧ b1 + 2 ^ k1 ≤ b2 + 2 ^ k2 := by
  have hmod1 : x % 2 ^ k1 = x - b1 := by
    rcases h1 with ⟨c, hc⟩
    have hr : x = 2 ^ k1 * c + (x - b1) := by omega
    have hlt : x - b1 < 2 ^ k1 := by omega
    calc x % 2 ^ k1 = (2 ^ k1 * c + (x - b1)) % 2 ^ k1 := by rw [← hr]
      _ = (x - b1) % 2 ^ k1 := Nat.mul_add_mod _ _ _
      _ = x - b1 := Nat.mod_eq_of_lt hlt
  have hmod2 : x % 2 ^ k2 = x - b2 := by
    rcases h2 with ⟨c, hc⟩
    have hr : x = 2 ^ k2 * c + (x - b2) := by omega
    have hlt : x - b2 < 2 ^ k2 := by omega
    calc x % 2 ^ k2 = (2 ^ k2 * c + (x - b2)) % 2 ^ k2 := by rw [← hr]
      _ = (x - b2) % 2 ^ k2 := Nat.mul_add_mod _ _ _
      _ = x - b2 := Nat.mod_eq_of_lt hlt
  have hmm : x % 2 ^ k1 ≤ x % 2 ^ k2 := by
    have hdd : 2 ^ k1 ∣ 2 ^ k2 := pow_dvd_pow 2 hk
    calc x % 2 ^ k1 = x % 2 ^ k2 % 2 ^ k1 := (Nat.mod_mod_of_dvd x hdd).symm
      _ ≤ x % 2 ^ k2 := Nat.mod_le _ _
  have hb21 : b2 ≤ b1 := by omega
  refine ⟨hb21, ?_⟩
  by_contra hc
  push_neg at hc
  have hd1 : 2 ^ k1 ∣ b1 + 2 ^ k1 := dvd_add h1 dvd_rfl
  have hd2 : 2 ^ k1 ∣ b2 + 2 ^ k2 :=
    dvd_add (dvd_trans (pow_dvd_pow 2 hk) h2) (pow_dvd_pow 2 hk)
  have hdiff : 2 ^ k1 ∣ (b1 + 2 ^ k1 - (b2 + 2 ^ k2)) := Nat.dvd_sub' hd1 hd2
  have hpos : 0 < b1 + 2 ^ k1 - (b2 + 2 ^ k2) := by omega
  have hge : 2 ^ k1 ≤ b1 + 2 ^ k1 - (b2 + 2 ^ k2) := Nat.le_of_dvd hpos hdiff
  omega

/-- `p` is contained in `q` (as blocks), decided on the numbers. -/
def blkSubB (p q : Nat × Nat) : Bool :=
  decide (q.1 ≤ p.1 ∧ p.1 + 2 ^ p.2 ≤ q.1 + 2 ^ q.2)

/-- Thin a list of blocks to a pairwise-disjoint sublist with the same
union: drop a block contained in an already kept one, and on keeping a
block drop all kept blocks contained in it. -/
def buildDisjoint : List (Nat × Nat) → List (Nat × Nat)
  | [] => []
  | p :: rest =>
    let M := buildDisjoint rest
    if M.any (fun q => blkSubB p q) then M
    else p :: M.filter (fun q => ! blkSubB q p)

theorem buildDisjoint_length (L : List (Nat × Nat)) :
    (buildDisjoint L).length ≤ L.length := by
  induction L with
  | nil => simp [buildDisjoint]
  | cons p rest ih =>
    rw [buildDisjoint]
    by_cases h : (buildDisjoint rest).any (fun q => blkSubB p q)
    · simp only [h, if_true]
      exact le_trans ih (by simp)
    · simp only [if_neg h, List.length_cons]
      have := List.length_filter_le (fun q => ! blkSubB q p) (buildDisjoint rest)
      omega

theorem buildDisjoint_subset (L : List (Nat × Nat)) :
    ∀ p ∈ buildDisjoint L, p ∈ L := by
  induction L with
  | nil => simp [buildDisjoint]
  | cons p rest ih =>
    intro q hq
    rw [buildDisjoint] at hq
    by_cases h : (buildDisjoint rest).any (fun r => blkSubB p r)
    · rw [if_pos h] at hq
      exact List.mem_cons_of_mem _ (ih q hq)
    · rw [if_neg h] at hq
      rcases List.mem_cons.mp hq with hq | hq
      · exact hq ▸ List.mem_cons_self _ _
      · exact List.mem_cons_of_mem _ (ih q (List.mem_of_mem_filter hq))

theorem blkSubB_mono (p q : Nat × Nat) (x : Nat) (hs : blkSubB p q = true)
    (hx : inBlk p x) : inBlk q x := by
  rw [blkSubB, decide_eq_true_eq] at hs
  exact ⟨le_trans hs.1 hx.1, lt_of_lt_of_le hx.2 hs.2⟩

theorem buildDisjoint_covers (L : List (Nat × Nat)) :
    ∀ x p, p ∈ L → inBlk p x → ∃ q ∈ buildDisjoint L, inBlk q x := by
  induction L with
  | nil => simp
  | cons p0 rest ih =>
    intro x p hp hx
    rw [buildDisjoint]
    by_cases h : (buildDisjoint rest).any (fun q => blkSubB p0 q)
    · rw [if_pos h]
      rcases List.mem_cons.mp hp with hp | hp
      · subst hp
        rcases List.any_eq_true.mp h with ⟨q, hq, hsq⟩
        exact ⟨q, hq, blkSubB_mono p q x hsq hx⟩
      · exact ih x p hp hx
    · rw [if_neg h]
      rcases List.mem_cons.mp hp with hp | hp
      · subst hp
        exact ⟨p, List.mem_cons_self _ _, hx⟩
      · rcases ih x p hp hx with ⟨q, hq, hqx⟩
        by_cases hs : blkSubB q p0 = true
        · exact ⟨p0, List.mem_cons_self _ _, blkSubB_mono q p0 x hs hqx⟩
        · refine ⟨q, List.mem_cons_of_mem _ ?_, hqx⟩
          rw [List.mem_filter]
          have hs2 : blkSubB q p0 = false := by
            cases hb : blkSubB q p0
            · rfl
            · exact absurd hb hs
          exact ⟨hq, by rw [hs2]; rfl⟩

theorem buildDisjoint_pairwise (L : List (Nat × Nat))
    (hal : ∀ p ∈ L, 2 ^ p.2 ∣ p.1) :
    List.Pairwise blkDisjoint (buildDisjoint L) := by
  induction L with
  | nil => simp [buildDisjoint]
  | cons p0 rest ih =>
    have hal0 : 2 ^ p0.2 ∣ p0.1 := hal p0 (List.mem_cons_self _ _)
    have halr : ∀ p ∈ rest, 2 ^ p.2 ∣ p.1 :=
      fun p hp => hal p (List.mem_cons_of_mem _ hp)
    have ihp := ih halr
    rw [buildDisjoint]
    by_cases h : (buildDisjoint rest).any (fun q => blkSubB p0 q)
    · rw [if_pos h]
      exact ihp
    · rw [if_neg h]
      refine List.pairwise_cons.mpr ⟨?_, ihp.sublist (List.filter_sublist _)⟩
      intro q hq
      have hqM : q ∈ buildDisjoint rest := List.mem_of_mem_filter hq
      have hqal : 2 ^ q.2 ∣ q.1 := halr q (buildDisjoint_subset rest q hqM)
      have hnsub1 : ¬ blkSubB p0 q = true := by
        intro hc
        exact h (List.any_eq_true.mpr ⟨q, hqM, hc⟩)
      have hnsub2 : ¬ blkSubB q p0 = true := by
        have := (List.mem_filter.mp hq).2
        intro hc
        rw [hc] at this
        simp at this
      intro x hx
      rcases hx with ⟨hxp, hxq⟩
      rcases le_total p0.2 q.2 with hk | hk
      · have := aligned_laminar p0.1 p0.2 q.1 q.2 x hal0 hqal hxp hxq hk
        exact hnsub1 (by rw [blkSubB, decide_eq_true_eq]; exact this)
      · have := aligned_laminar q.1 q.2 p0.1 p0.2 x hqal hal0 hxq hxp hk
        exact hnsub2 (by rw [blkSubB, decide_eq_true_eq]; exact this)

/-- Any pairwise-disjoint list of valid blocks that lie inside and cover
`[a, b]` has at least as many blocks as the greedy summarization. -/
theorem summarize_minimal_disjoint (N : Nat) :
    ∀ (M : List (Nat × Nat)) (a b : Nat), M.length ≤ N → b < 2 ^ 32 →
      (∀ p ∈ M, 2 ^ p.2 ∣ p.1) →
      (∀ p ∈ M, ∀ x, inBlk p x → a ≤ x ∧ x ≤ b) →
      (∀ x, a ≤ x → x ≤ b → ∃ p ∈ M, inBlk p x) →
      List.Pairwise blkDisjoint M →
      (summarize a b).length ≤ M.length := by
  induction N with
  | zero =>
    intro M a b hlen hb hal hin hcov hdisj
    have hM : M = [] := List.length_eq_zero.mp (by omega)
    subst hM
    by_cases h : a ≤ b
    · rcases hcov a le_rfl h with ⟨p, hp, _⟩
      simp at hp
    · rw [summarize_neg a b h]
  | succ N ih =>
    intro M a b hlen hb hal hin hcov hdisj
    by_cases h : a ≤ b
    · rcases hcov a le_rfl h with ⟨D, hD, hDa⟩
      have hpos : 0 < 2 ^ D.2 := Nat.pos_pow_of_pos _ (by norm_num)
      have hD1 : a ≤ D.1 := (hin D hD D.1 ⟨le_rfl, by omega⟩).1
      have hbase : D.1 = a := le_antisymm (hDa.1) hD1
      have hend : D.1 + 2 ^ D.2 ≤ b + 1 := by
        have := (hin D hD (D.1 + 2 ^ D.2 - 1) ⟨by omega, by omega⟩).2
        omega
      have hdvd : 2 ^ D.2 ∣ a := hbase ▸ hal D hD
      have hm32 : D.2 ≤ 32 := by
        have h1 : 2 ^ D.2 ≤ 2 ^ 32 := by omega
        exact (Nat.pow_le_pow_iff_right (by norm_num)).mp h1
      have hmk : D.2 ≤ nbitsOf a b := by
        refine le_min (le_countRh a D.2 hdvd hm32) (le_log2 _ _ ?_)
        omega
      -- the greedy list: one block of size 2 ^ nbitsOf a b, then the rest
      have hglen : (summarize a b).length =
          1 + (summarize (a + 2 ^ nbitsOf a b) b).length := by
        rw [summarize_pos a b h]
        simp [Nat.add_comm]
      have hfill : (summarize (a + 2 ^ D.2) b).length =
          (nbitsOf a b - D.2) + (summarize (a + 2 ^ nbitsOf a b) b).length :=
        summarize_fill (nbitsOf a b - D.2) D.2 (nbitsOf a b) a b rfl hmk
          (nbitsOf_dvd a b) (nbitsOf_fits a b h) (nbitsOf_le_32 a b)
      -- no duplicates in M, so erasing D removes exactly its occurrence
      have hnodup : M.Nodup := by
        refine List.Pairwise.imp ?_ hdisj
        intro p q hpq
        intro hc
        subst hc
        exact blkDisjoint_irrefl p hpq
      have hDmem := hD
      have herase_len : (M.erase D).length = M.length - 1 :=
        List.length_erase_of_mem hD
      have hmemE : ∀ q, q ∈ M.erase D ↔ q ≠ D ∧ q ∈ M := by
        intro q
        exact List.Nodup.mem_erase_iff hnodup
      have hdisjE : List.Pairwise blkDisjoint (M.erase D) :=
        hdisj.sublist (List.erase_sublist _ _)
      have hdisjD : ∀ q ∈ M, q ≠ D → blkDisjoint q D := by
        intro q hq hne
        exact hdisj.forall blkDisjoint_symm hq hD hne
      have hinE : ∀ p ∈ M.erase D, ∀ x, inBlk p x →
          a + 2 ^ D.2 ≤ x ∧ x ≤ b := by
        intro p hp x hx
        rcases (hmemE p).mp hp with ⟨hne, hpM⟩
        have hold := hin p hpM x hx
        refine ⟨?_, hold.2⟩
        by_contra hc
        push_neg at hc
        have hxD : inBlk D x := ⟨by omega, by omega⟩
        exact hdisjD p hpM hne x ⟨hx, hxD⟩
      have hcovE : ∀ x, a + 2 ^ D.2 ≤ x → x ≤ b →
          ∃ p ∈ M.erase D, inBlk p x := by
        intro x hx1 hx2
        rcases hcov x (by omega) hx2 with ⟨p, hp, hpx⟩
        have hne : p ≠ D := by
          intro hc
          subst hc
          rcases hpx with ⟨_, h2⟩
          omega
        exact ⟨p, (hmemE p).mpr ⟨hne, hp⟩, hpx⟩
      have halE : ∀ p ∈ M.erase D, 2 ^ p.2 ∣ p.1 := by
        intro p hp
        exact hal p ((hmemE p).mp hp).2
      have hlenE : (M.erase D).length ≤ N := by
        have h1 : 1 ≤ M.length := List.length_pos.mpr (by
          intro hc
          rw [hc] at hD
          simp at hD)
        omega
      have hrec := ih (M.erase D) (a + 2 ^ D.2) b hlenE hb halE hinE hcovE hdisjE
      have h1 : 1 ≤ M.length := List.length_pos.mpr (by
        intro hc
        rw [hc] at hD
        simp at hD)
      omega
    · rw [summarize_neg a b h]
      simp

/-- Any list of valid CIDR blocks whose union is exactly `[a, b]` has at
least as many blocks as the greedy summarization. -/
theorem summarize_minimal (a b : Nat) (hb : b < 2 ^ 32) (L : List (Nat × Nat))
    (hal : ∀ p ∈ L, 2 ^ p.2 ∣ p.1)
    (hcov : ∀ x, (a ≤ x ∧ x ≤ b) ↔ ∃ p ∈ L, p.1 ≤ x ∧ x < p.1 + 2 ^ p.2) :
    (summarize a b).length ≤ L.length := by
  have halM : ∀ p ∈ buildDisjoint L, 2 ^ p.2 ∣ p.1 :=
    fun p hp => hal p (buildDisjoint_subset L p hp)
  have hinM : ∀ p ∈ buildDisjoint L, ∀ x, inBlk p x → a ≤ x ∧ x ≤ b := by
    intro p hp x hx
    exact (hcov x).mpr ⟨p, buildDisjoint_subset L p hp, hx.1, hx.2⟩
  have hcovM : ∀ x, a ≤ x → x ≤ b → ∃ p ∈ buildDisjoint L, inBlk p x := by
    intro x h1 h2
    rcases (hcov x).mp ⟨h1, h2⟩ with ⟨p, hp, hx1, hx2⟩
    exact buildDisjoint_covers L x p hp ⟨hx1, hx2⟩
  exact le_trans
    (summarize_minimal_disjoint (buildDisjoint L).length (buildDisjoint L) a b
      le_rfl hb halM hinM hcovM (buildDisjoint_pairwise L hal))
    (buildDisjoint_length L)

theorem summarize_ex1 : summarize 167772160 167772415 = [(167772160, 8)] := by
  have h1 : countRh 167772160 32 = 25 := by decide
  have h2 : Nat.log2 256 = 8 := by norm_num [Nat.log2]
  have hn : nbitsOf 167772160 167772415 = 8 := by
    rw [nbitsOf]
    norm_num [h1, h2]
  rw [summarize_pos _ _ (by norm_num), hn,
    show (167772160 + 2 ^ 8 : Nat) = 167772416 by norm_num,
    summarize_neg 167772416 167772415 (by norm_num)]

theorem summarize_ex2 :
    summarize 167772161 167772162 = [(167772161, 0), (167772162, 0)] := by
  have h1 : countRh 167772161 32 = 0 := by decide
  have hn1 : nbitsOf 167772161 167772162 = 0 := by
    rw [nbitsOf, h1]
    simp
  have h2 : countRh 167772162 32 = 1 := by decide
  have h3 : Nat.log2 1 = 0 := by norm_num [Nat.log2]
  have hn2 : nbitsOf 167772162 167772162 = 0 := by
    rw [nbitsOf, h2]
    norm_num [h3]
  rw [summarize_pos _ _ (by norm_num), hn1,
    show (167772161 + 2 ^ 0 : Nat) = 167772162 by norm_num,
    summarize_pos _ _ (by norm_num), hn2,
    show (167772162 + 2 ^ 0 : Nat) = 167772163 by norm_num,
    summarize_neg 167772163 167772162 (by norm_num)]

theorem get_cidr_ex1 : get_cidr "10.0.0.0" "10.0.0.255" = ["10.0.0.0/24"] := by
  have h : get_cidr "10.0.0.0" "10.0.0.255" =
      (summarize 167772160 167772415).map
        (fun p => ipv4ToString p.1 ++ "/" ++ natToString (32 - p.2)) := rfl
  rw [h, summarize_ex1]
  rfl

theorem get_cidr_ex2 :
    get_cidr "10.0.0.1" "10.0.0.2" = ["10.0.0.1/32", "10.0.0.2/32"] := by
  have h : get_cidr "10.0.0.1" "10.0.0.2" =
      (summarize 167772161 167772162).map
        (fun p => ipv4ToString p.1 ++ "/" ++ natToString (32 - p.2)) := rfl
  rw [h, summarize_ex2]
  rfl

/-- C8: for every inclusive IPv4 range `[a, b]` (`a ≤ b`, 32-bit), the CIDR
normalizer's block list `summarize a b` (the numeric core of `get_cidr`)
(1) covers exactly the range, (2) consists of valid CIDR blocks (aligned,
at most 32 bits), (3) is contiguous in increasing address order, and
(4) is minimal: no list of valid CIDR blocks exactly covering the range is
shorter.  In particular `get_cidr` maps [10.0.0.0, 10.0.0.255] to
`["10.0.0.0/24"]` and [10.0.0.1, 10.0.0.2] to
`["10.0.0.1/32", "10.0.0.2/32"]`. -/
theorem get_cidr_minimal_cover (a b : Nat) (_h1 : a ≤ b) (h2 : b < 2 ^ 32) :
    (∀ x, (a ≤ x ∧ x ≤ b) ↔
      ∃ p ∈ summarize a b, p.1 ≤ x ∧ x < p.1 + 2 ^ p.2) ∧
    (∀ p ∈ summarize a b, 2 ^ p.2 ∣ p.1 ∧ p.2 ≤ 32) ∧
    List.Chain' (fun p q : Nat × Nat => p.1 + 2 ^ p.2 = q.1) (summarize a b) ∧
    (∀ L : List (Nat × Nat), (∀ p ∈ L, 2 ^ p.2 ∣ p.1) →
      (∀ x, (a ≤ x ∧ x ≤ b) ↔ ∃ p ∈ L, p.1 ≤ x ∧ x < p.1 + 2 ^ p.2) →
      (summarize a b).length ≤ L.length) ∧
    get_cidr "10.0.0.0" "10.0.0.255" = ["10.0.0.0/24"] ∧
    get_cidr "10.0.0.1" "10.0.0.2" = ["10.0.0.1/32", "10.0.0.2/32"] :=
  ⟨summarize_cover a b, summarize_block_valid a b, summarize_chain a b,
   fun L hal hcov => summarize_minimal a b h2 L hal hcov,
   get_cidr_ex1, get_cidr_ex2⟩

/-- Witness for C8 at the concrete range [10.0.0.1, 10.0.0.2]. -/
theorem get_cidr_minimal_cover_witness :
    (∀ x, (167772161 ≤ x ∧ x ≤ 167772162) ↔
      ∃ p ∈ summarize 167772161 167772162, p.1 ≤ x ∧ x < p.1 + 2 ^ p.2) ∧
    (∀ p ∈ summarize 167772161 167772162, 2 ^ p.2 ∣ p.1 ∧ p.2 ≤ 32) ∧
    List.Chain' (fun p q : Nat × Nat => p.1 + 2 ^ p.2 = q.1)
      (summarize 167772161 167772162) ∧
    (∀ L : List (Nat × Nat), (∀ p ∈ L, 2 ^ p.2 ∣ p.1) →
      (∀ x, (167772161 ≤ x ∧ x ≤ 167772162) ↔
        ∃ p ∈ L, p.1 ≤ x ∧ x < p.1 + 2 ^ p.2) →
      (summarize 167772161 167772162).length ≤ L.length) ∧
    get_cidr "10.0.0.0" "10.0.0.255" = ["10.0.0.0/24"] ∧
    get_cidr "10.0.0.1" "10.0.0.2" = ["10.0.0.1/32", "10.0.0.2/32"] :=
  get_cidr_minimal_cover 167772161 167772162 (by norm_num) (by norm_num)
